import Mathlib

/-!
Verification of the `sjtu::list` doubly linked list container (`src/list.hpp`).

The development embeds the container at two levels.

At the value level, each bulk algorithm is translated into a pure function on
the traversal sequence of element values (the sequence of `*node->val` read
from `sentinel.next` to the sentinel via `next` links):

* `sortModel` embeds `list::sort` as the explicit-stack quicksort machine the
  code runs: the node-pointer buffer `a[]` becomes an indexed family
  `f : Int → α`, the `L`/`R` boundary arrays become the stack of pairs, and
  the Hoare scan/swap partition is reproduced literally (`scanUp`,
  `scanDown`, `partLoop`, `qsStep`, `qsRun`).
* `mergeChains` embeds the splice loop of `list::merge`.
* `reverseModel` embeds `list::reverse`: the do-while loop swaps the
  `prev`/`next` fields of every node including the sentinel, after which the
  `next`-traversal follows the old `prev` links, i.e. visits the elements in
  reversed order; at the traversal level the loop maps the element sequence
  to its reverse (guarded by the `sz <= 1` early return).
* `uniqueRun` embeds the cursor loop of `list::unique`.

At the container level, `ListSt` carries the list identity (the `this`
pointer), the traversal sequence `elems`, and the size counter `sz` as a
separate field that is updated exactly where the code updates it (`++sz` in
the node-level insert, `--sz` in the node-level erase, `sz = 0` in `clear`
and on the merge argument, `sz = new_sz` on the merge receiver; `sort` and
`reverse` never touch it).  Iterators (`LIter`) carry the owner identity
(`owner`, `none` for a null owner pointer) and the node pointer as a
position: `some k` with `k < elems.length` is the node of the k-th element,
`some elems.length` is the sentinel, `none` is a null pointer.  Each
fallible operation returns the state it leaves behind together with a
`Res` value, with the precondition tests in exactly the order the code
performs them, so the theorems can certify that every error branch returns
the input state unchanged.
-/

namespace sjtu

/-- Error kinds of `exceptions.hpp` as consumed by `list.hpp`:
`container_is_empty` and `invalid_iterator`. -/
inductive ListError where
  | containerIsEmpty : ListError
  | invalidIterator : ListError
deriving DecidableEq

/-- Outcome of an operation that may throw: a normal return or an exception. -/
inductive Res (β : Type) where
  | ok : β → Res β
  | err : ListError → Res β
deriving DecidableEq

/-- Buffer update performed by `node *t = a[i]; a[i] = a[j]; a[j] = t;`
in `list::sort`. -/
def swapF {α : Type} (f : Int → α) (i j : Int) : Int → α :=
  fun k => if k = i then f j else if k = j then f i else f k

/-- Scan `while (*(a[i]->val) < *(pivot->val)) ++i;` of `list::sort`.
The fuel argument is a modelling artifact: the sufficiency lemmas show the
scan always stops strictly before the fuel is exhausted. -/
def scanUp {α : Type} [LinearOrder α] (f : Int → α) (v : α) : Nat → Int → Int
  | 0, i => i
  | fuel + 1, i => if f i < v then scanUp f v fuel (i + 1) else i

/-- Scan `while (*(pivot->val) < *(a[j]->val)) --j;` of `list::sort`. -/
def scanDown {α : Type} [LinearOrder α] (f : Int → α) (v : α) : Nat → Int → Int
  | 0, j => j
  | fuel + 1, j => if v < f j then scanDown f v fuel (j - 1) else j

/-- Partition loop `while (i <= j) { ... }` of `list::sort` for the fixed
pivot value `v` (the pivot is a node pointer, so its value does not move
when buffer entries are swapped).  Returns the final buffer and the final
scan indices `(i, j)`. -/
def partLoop {α : Type} [LinearOrder α] (v : α) (sf : Nat) :
    Nat → (Int → α) → Int → Int → (Int → α) × Int × Int
  | 0, f, i, j => (f, i, j)
  | fuel + 1, f, i, j =>
    if i ≤ j then
      if scanUp f v sf i ≤ scanDown f v sf j then
        partLoop v sf fuel (swapF f (scanUp f v sf i) (scanDown f v sf j))
          (scanUp f v sf i + 1) (scanDown f v sf j - 1)
      else (f, scanUp f v sf i, scanDown f v sf j)
    else (f, i, j)

/-- State of the iterative quicksort of `list::sort`: the node buffer as an
indexed family of values, and the explicit stack of subrange boundaries
(`L[0..top], R[0..top]`, head of the list = top of the stack). -/
structure QS (α : Type) where
  f : Int → α
  stack : List (Int × Int)

/-- One iteration of `while (top >= 0) { ... }` in `list::sort`: pop a
subrange, read the middle pivot value (`(l + r) >> 1`, nonnegative here, so
integer halving), partition, then push the left subrange `(l, j)` and the
right subrange `(i, r)` whenever they have at least two elements (the
second push ends on top of the stack, exactly as in the code). -/
def qsStep {α : Type} [LinearOrder α] (n : Nat) (s : QS α) : QS α :=
  match s.stack with
  | [] => s
  | (l, r) :: rest =>
    let v := s.f ((l + r) / 2)
    let p := partLoop v (n + 2) (n + 2) s.f l r
    let st1 := if l < p.2.2 then (l, p.2.2) :: rest else rest
    let st2 := if p.2.1 < r then (p.2.1, r) :: st1 else st1
    ⟨p.1, st2⟩

/-- The outer loop of `list::sort`, running `qsStep` until the stack is
empty.  The fuel is a modelling artifact; `2 ^ n` is proved sufficient. -/
def qsRun {α : Type} [LinearOrder α] (n : Nat) : Nat → QS α → QS α
  | 0, s => s
  | fuel + 1, s =>
    match s.stack with
    | [] => s
    | _ :: _ => qsRun n fuel (qsStep n s)

/-- The auxiliary buffer of `list::sort` filled by
`for (node *cur = head->next; cur != head; cur = cur->next) a[idx++] = cur;`:
index `k` holds the value of the k-th element.  Out-of-range reads never
occur in reachable states; they are given the junk value `d`. -/
def bufOf {α : Type} (xs : List α) (d : α) : Int → α :=
  fun k => xs.getD k.toNat d

/-- Embedding of `list::sort` on the traversal sequence: early return for
`sz <= 1`; otherwise run the quicksort machine from the full range
`(0, sz - 1)` and read the relinked chain back off the buffer
(`head->next = a[0]; ...; a[sz-1]->next = head;`). -/
def sortModel {α : Type} [LinearOrder α] (xs : List α) (d : α) : List α :=
  if xs.length ≤ 1 then xs
  else
    let n := xs.length
    let s := qsRun n (2 ^ n) ⟨bufOf xs d, [((0 : Int), (n : Int) - 1)]⟩
    (List.range n).map (fun (t : Nat) => s.f (t : Int))

/-- Splice loop of `list::merge`: while both chains are nonempty, take the
argument's node exactly when its value is strictly smaller
(`*(b->val) < *(a->val)`), otherwise take the receiver's node; then drain
the leftover chain.  `ltb` is the `operator<` of the element type. -/
def mergeChains {β : Type} (ltb : β → β → Bool) : List β → List β → List β
  | [], bs => bs
  | a :: as, [] => a :: as
  | a :: as, b :: bs =>
    if ltb b a then b :: mergeChains ltb (a :: as) bs
    else a :: mergeChains ltb as (b :: bs)
termination_by as bs => as.length + bs.length

/-- Tag the elements of a chain with their list of origin, for the
stability statements about `list::merge`: `false` = receiver (`*this`),
`true` = argument (`other`).  The tag plays the role of the node identity;
the comparison used by the merge reads only the value component. -/
def tagged {α : Type} (b : Bool) (xs : List α) : List (α × Bool) :=
  xs.map (fun x => (x, b))

/-- Comparison used by `list::merge` on tagged nodes: `operator<` on the
stored values; the origin tag is not consulted. -/
def valLt {α : Type} [LinearOrder α] (p q : α × Bool) : Bool :=
  decide (p.1 < q.1)

/-- Embedding of `list::reverse` on the traversal sequence: for `sz <= 1`
the loop is skipped; otherwise every node's `prev`/`next` pair is swapped
(sentinel included), which reverses the `next`-traversal order. -/
def reverseModel {α : Type} (xs : List α) : List α :=
  if xs.length ≤ 1 then xs else xs.reverse

/-- Cursor loop of `list::unique`: `cur` is the first element of the not yet
processed suffix; while at least two nodes remain, either the node after
`cur` is erased (equal values) or `cur` advances. -/
def uniqueRun {α : Type} [DecidableEq α] : List α → List α
  | [] => []
  | [a] => [a]
  | a :: b :: rest =>
    if a = b then uniqueRun (a :: rest)
    else a :: uniqueRun (b :: rest)

/-- Embedding of `list::unique` on the traversal sequence, including the
`sz <= 1` early return. -/
def uniqueModel {α : Type} [DecidableEq α] (xs : List α) : List α :=
  if xs.length ≤ 1 then xs else uniqueRun xs

/-- Container state: list identity (the `this` pointer), traversal sequence
of element values, and the size counter `sz` as an independent field that
follows the code's explicit updates. -/
structure ListSt (α : Type) where
  id : Nat
  elems : List α
  sz : Nat
deriving DecidableEq

/-- Iterator state: `owner` is the back-reference to the owning list
(`none` models a null owner pointer), `ptr` is the node reference as a
position in the owner's chain (`some k` with `k <` length: k-th element;
`some` length: the sentinel; `none`: a null node pointer). -/
structure LIter where
  owner : Option Nat
  ptr : Option Nat
deriving DecidableEq

/-- The `end()` iterator: bound to this list, at the sentinel. -/
def endIter {α : Type} (l : ListSt α) : LIter :=
  ⟨some l.id, some l.elems.length⟩

/-- The `begin()` iterator: `iterator(this, head->next)`; for an empty list
`head->next` is the sentinel, and position `0 = length` is the sentinel. -/
def beginIter {α : Type} (l : ListSt α) : LIter :=
  ⟨some l.id, some 0⟩

/-- The size-counter invariant of the spec: the counter equals the number
of non-sentinel nodes on the chain, i.e. the length of the traversal
sequence. -/
def Inv {α : Type} (l : ListSt α) : Prop :=
  l.sz = l.elems.length

/-- Well-formed node reference: a non-null `ptr` points at a node of the
owner's chain (element or sentinel).  Dangling node pointers are undefined
behaviour in the source and are outside the model. -/
def IterOk {α : Type} (l : ListSt α) (it : LIter) : Prop :=
  ∀ k, it.ptr = some k → k ≤ l.elems.length

/-- `list::insert(pos, value)`: validity check first
(`pos.owner != this || pos.ptr == nullptr`), then the node-level insert
splices a fresh node before `pos` and increments `sz`; returns an iterator
to the new node. -/
def insert {α : Type} (l : ListSt α) (pos : LIter) (value : α) :
    ListSt α × Res LIter :=
  if pos.owner ≠ some l.id ∨ pos.ptr = none then (l, .err .invalidIterator)
  else
    match pos.ptr with
    | some k =>
        ({ l with elems := l.elems.insertIdx k value, sz := l.sz + 1 },
         .ok ⟨some l.id, some k⟩)
    | none => (l, .err .invalidIterator)

/-- `list::erase(pos)`: emptiness check first (`sz == 0`), then validity
(`pos.owner != this || pos.ptr == nullptr || pos.ptr == head`), then the
node-level erase unlinks the node, `sz` is decremented, the node is
destroyed, and an iterator to the node that followed is returned (position
`k` of the shortened chain). -/
def erase {α : Type} (l : ListSt α) (pos : LIter) : ListSt α × Res LIter :=
  if l.sz = 0 then (l, .err .containerIsEmpty)
  else if pos.owner ≠ some l.id ∨ pos.ptr = none ∨ pos.ptr = some l.elems.length then
    (l, .err .invalidIterator)
  else
    match pos.ptr with
    | some k =>
        ({ l with elems := l.elems.eraseIdx k, sz := l.sz - 1 },
         .ok ⟨some l.id, some k⟩)
    | none => (l, .err .invalidIterator)

/-- `list::front()`: throws `container_is_empty` when `sz == 0`, otherwise
reads `head->next->val` (the head of the traversal sequence). -/
def front {α : Type} (l : ListSt α) : ListSt α × Res (Option α) :=
  if l.sz = 0 then (l, .err .containerIsEmpty) else (l, .ok l.elems.head?)

/-- `list::back()`: throws `container_is_empty` when `sz == 0`, otherwise
reads `head->prev->val` (the last element of the traversal sequence). -/
def back {α : Type} (l : ListSt α) : ListSt α × Res (Option α) :=
  if l.sz = 0 then (l, .err .containerIsEmpty) else (l, .ok l.elems.getLast?)

/-- `list::push_back(value)`: `insert(iterator(this, head), value)`. -/
def push_back {α : Type} (l : ListSt α) (value : α) : ListSt α :=
  (insert l (endIter l) value).1

/-- `list::push_front(value)`: `insert(iterator(this, head->next), value)`;
`head->next` is position `0` (which is also the sentinel when empty). -/
def push_front {α : Type} (l : ListSt α) (value : α) : ListSt α :=
  (insert l ⟨some l.id, some 0⟩ value).1

/-- `list::pop_back()`: emptiness check, then
`erase(iterator(this, head->prev))` with the exception propagating. -/
def pop_back {α : Type} (l : ListSt α) : ListSt α × Res Unit :=
  if l.sz = 0 then (l, .err .containerIsEmpty)
  else
    let e := erase l ⟨some l.id, some (l.elems.length - 1)⟩
    (e.1, match e.2 with | .ok _ => .ok () | .err x => .err x)

/-- `list::pop_front()`: emptiness check, then
`erase(iterator(this, head->next))` with the exception propagating. -/
def pop_front {α : Type} (l : ListSt α) : ListSt α × Res Unit :=
  if l.sz = 0 then (l, .err .containerIsEmpty)
  else
    let e := erase l ⟨some l.id, some 0⟩
    (e.1, match e.2 with | .ok _ => .ok () | .err x => .err x)

/-- `list::clear()`: destroys every element node, relinks the sentinel to
itself and resets `sz` to 0. -/
def clear {α : Type} (l : ListSt α) : ListSt α :=
  { l with elems := [], sz := 0 }

/-- Default constructor: a fresh sentinel self-linked, `sz = 0`. -/
def defaultList (α : Type) (i : Nat) : ListSt α :=
  ⟨i, [], 0⟩

/-- Copy constructor: starts empty and `push_back`s every element of
`other` in traversal order, so the new counter is the number of elements
pushed. -/
def listCopy {α : Type} (other : ListSt α) (i : Nat) : ListSt α :=
  ⟨i, other.elems, other.elems.length⟩

/-- Copy assignment: self-assignment check, then `clear()` followed by
`push_back` of every element of `other`. -/
def assign {α : Type} (l other : ListSt α) : ListSt α :=
  if l.id = other.id then l
  else { l with elems := other.elems, sz := other.elems.length }

/-- `list::sort()` at the container level: relinks the chain in sorted
buffer order and never touches the size counter. -/
def sort {α : Type} [LinearOrder α] (d : α) (l : ListSt α) : ListSt α :=
  { l with elems := sortModel l.elems d }

/-- `list::merge(other)` at the container level: no-op when the argument is
the same object or empty; otherwise the splice loop rebuilds the receiver's
chain, the argument's sentinel is self-linked with `sz = 0`, and the
receiver's counter becomes the precomputed `new_sz = sz + other.sz`. -/
def merge {α : Type} [LinearOrder α] (l other : ListSt α) :
    ListSt α × ListSt α :=
  if l.id = other.id ∨ other.sz = 0 then (l, other)
  else
    ({ l with
       elems := mergeChains (fun a b => decide (a < b)) l.elems other.elems,
       sz := l.sz + other.sz },
     { other with elems := ([] : List α), sz := 0 })

/-- `list::reverse()` at the container level: link swaps only, the size
counter is untouched. -/
def reverse {α : Type} (l : ListSt α) : ListSt α :=
  { l with elems := reverseModel l.elems }

/-- `list::unique()` at the container level: the cursor loop erases one
node (and decrements `sz`) per removed duplicate. -/
def unique {α : Type} [DecidableEq α] (l : ListSt α) : ListSt α :=
  { l with
    elems := uniqueModel l.elems,
    sz := l.sz - (l.elems.length - (uniqueModel l.elems).length) }

/-- `iterator::operator++` (both forms): throws `invalid_iterator` when the
owner is null, the node pointer is null, or the node is the owner's
sentinel; otherwise steps to `ptr->next`.  `l` is the owning list the
iterator's back-reference designates. -/
def incIter {α : Type} (l : ListSt α) (it : LIter) : LIter × Res Unit :=
  if it.owner = none ∨ it.ptr = none ∨ it.ptr = some l.elems.length then
    (it, .err .invalidIterator)
  else
    match it.ptr with
    | some k => ({ it with ptr := some (k + 1) }, .ok ())
    | none => (it, .err .invalidIterator)

/-- `iterator::operator--` (both forms): null checks first, then the
empty-owner check (`owner->sz == 0`), then the begin check
(`ptr->prev == owner->head`, i.e. position 0); otherwise steps to
`ptr->prev`. -/
def decIter {α : Type} (l : ListSt α) (it : LIter) : LIter × Res Unit :=
  if it.owner = none ∨ it.ptr = none then (it, .err .invalidIterator)
  else if l.sz = 0 then (it, .err .invalidIterator)
  else if it.ptr = some 0 then (it, .err .invalidIterator)
  else
    match it.ptr with
    | some k => ({ it with ptr := some (k - 1) }, .ok ())
    | none => (it, .err .invalidIterator)

/-- `iterator::operator*`: throws `invalid_iterator` when the owner is
null, the node pointer is null, or the node is the sentinel; otherwise
dereferences the stored value.  No state is modified in either outcome. -/
def derefIter {α : Type} (l : ListSt α) (it : LIter) :
    (ListSt α × LIter) × Res (Option α) :=
  if it.owner = none ∨ it.ptr = none ∨ it.ptr = some l.elems.length then
    ((l, it), .err .invalidIterator)
  else
    ((l, it), .ok (match it.ptr with | some k => l.elems[k]? | none => none))

/-- Window of `m` consecutive buffer cells starting at index `a`, as a
multiset of values: the blueprint for the permutation facts about
`list::sort`. -/
def msOn {α : Type} (f : Int → α) (a : Int) (m : Nat) : Multiset α :=
  (Multiset.range m).map (fun (t : Nat) => f (a + (t : Int)))

/-- Stack measure of the quicksort machine: each stacked subrange `(l, r)`
contributes `2 ^ (length of the subrange)`; it strictly decreases at every
`qsStep`, which bounds the machine's running time. -/
def qsMeasure {α : Type} (s : QS α) : Nat :=
  (s.stack.map (fun p => 2 ^ ((p.2 - p.1).toNat + 1))).sum

/-- Loop invariant of the partition loop of `list::sort`, relating the
current buffer `f` and scan indices `(i, j)` to the subrange `(l, r)`, the
pivot value `v` and the buffer `f0` at loop entry. -/
structure PInv {α : Type} [LinearOrder α] (v : α) (l r : Int) (f0 f : Int → α)
    (i j : Int) : Prop where
  hli : l ≤ i
  hir : i ≤ r + 1
  hlj : l - 1 ≤ j
  hjr : j ≤ r
  prog : (i = l ∧ j = r) ∨ (l < i ∧ j < r)
  left : ∀ k, l ≤ k → k < i → f k ≤ v
  right : ∀ k, j < k → k ≤ r → v ≤ f k
  frame : ∀ k, k < l ∨ r < k → f k = f0 k
  perm : msOn f l ((r - l).toNat + 1) = msOn f0 l ((r - l).toNat + 1)
  su : i ≤ j → ∃ k, i ≤ k ∧ k ≤ j + 1 ∧ ¬ f k < v
  sd : i ≤ j → ∃ k, i - 1 ≤ k ∧ k ≤ j ∧ ¬ v < f k
  mid0 : i = l ∧ j = r → ¬ f ((l + r) / 2) < v ∧ ¬ v < f ((l + r) / 2)

/-- Postcondition of the partition loop of `list::sort`: the scan indices
have crossed making strict progress on both sides, values left of `i` are
at most the pivot, values right of `j` are at least the pivot, and the
buffer was permuted only inside `(l, r)`. -/
structure PPost {α : Type} [LinearOrder α] (v : α) (l r : Int) (f0 f : Int → α)
    (i j : Int) : Prop where
  hli : l < i
  hir : i ≤ r + 1
  hlj : l - 1 ≤ j
  hjr : j < r
  hji : j < i
  left : ∀ k, l ≤ k → k < i → f k ≤ v
  right : ∀ k, j < k → k ≤ r → v ≤ f k
  frame : ∀ k, k < l ∨ r < k → f k = f0 k
  perm : msOn f l ((r - l).toNat + 1) = msOn f0 l ((r - l).toNat + 1)

/-- Machine invariant of the iterative quicksort of `list::sort` over the
buffer window `[0, n)`: stacked subranges are within bounds and of length
at least 2, pairwise disjoint, every pair of positions not covered
together by a stacked subrange is already ordered, and the window holds a
permutation of the initial buffer `f0`. -/
structure QInv {α : Type} [LinearOrder α] (n : Nat) (f0 : Int → α)
    (s : QS α) : Prop where
  bounds : ∀ p ∈ s.stack, 0 ≤ p.1 ∧ p.1 < p.2 ∧ p.2 ≤ (n : Int) - 1
  disj : s.stack.Pairwise (fun p q => p.2 < q.1 ∨ q.2 < p.1)
  outside : ∀ k1 k2 : Int, 0 ≤ k1 → k1 < k2 → k2 ≤ (n : Int) - 1 →
    (∀ p ∈ s.stack, ¬ (p.1 ≤ k1 ∧ k2 ≤ p.2)) → s.f k1 ≤ s.f k2
  perm : msOn s.f 0 n = msOn f0 0 n

theorem reverseModel_eq {α : Type} (xs : List α) : reverseModel xs = xs.reverse := by
  rcases xs with _ | ⟨a, _ | ⟨b, t⟩⟩ <;> simp [reverseModel]

theorem uniqueRun_eq_destutter' {α : Type} [DecidableEq α] (xs : List α) (a : α) :
    uniqueRun (a :: xs) = List.destutter' (· ≠ ·) a xs := by
  induction xs generalizing a with
  | nil => simp [uniqueRun, List.destutter'_nil]
  | cons b t ih =>
    by_cases h : a = b
    · subst h
      rw [uniqueRun, if_pos rfl, ih, List.destutter'_cons_neg]
      simp
    · rw [uniqueRun, if_neg h, ih, List.destutter'_cons_pos]
      exact h

theorem uniqueRun_eq_destutter {α : Type} [DecidableEq α] (xs : List α) :
    uniqueRun xs = xs.destutter (· ≠ ·) := by
  cases xs with
  | nil => simp [uniqueRun, List.destutter]
  | cons a t => rw [uniqueRun_eq_destutter', List.destutter]

theorem uniqueModel_eq_destutter {α : Type} [DecidableEq α] (xs : List α) :
    uniqueModel xs = xs.destutter (· ≠ ·) := by
  rw [uniqueModel]
  split
  · rcases xs with _ | ⟨a, _ | ⟨b, t⟩⟩
    · rfl
    · simp [List.destutter, List.destutter'_nil]
    · simp at *
  · exact uniqueRun_eq_destutter xs

theorem uniqueModel_length_le {α : Type} [DecidableEq α] (xs : List α) :
    (uniqueModel xs).length ≤ xs.length := by
  rw [uniqueModel_eq_destutter]
  exact (List.destutter_sublist _ xs).length_le

theorem mergeChains_nil_left {β : Type} (ltb : β → β → Bool) (bs : List β) :
    mergeChains ltb [] bs = bs := by
  rw [mergeChains]

theorem mergeChains_nil_right {β : Type} (ltb : β → β → Bool) (a : β)
    (as : List β) :
    mergeChains ltb (a :: as) [] = a :: as := by
  rw [mergeChains]

theorem mergeChains_cons_pos {β : Type} (ltb : β → β → Bool) (a b : β)
    (as bs : List β) (h : ltb b a = true) :
    mergeChains ltb (a :: as) (b :: bs) = b :: mergeChains ltb (a :: as) bs := by
  rw [mergeChains]
  simp [h]

theorem mergeChains_cons_neg {β : Type} (ltb : β → β → Bool) (a b : β)
    (as bs : List β) (h : ¬ ltb b a = true) :
    mergeChains ltb (a :: as) (b :: bs) = a :: mergeChains ltb as (b :: bs) := by
  rw [mergeChains]
  simp [h]

theorem mergeChains_perm {β : Type} (ltb : β → β → Bool) (as bs : List β) :
    (mergeChains ltb as bs).Perm (as ++ bs) := by
  induction as, bs using mergeChains.induct ltb with
  | case1 bs => simp [mergeChains_nil_left]
  | case2 a as => simp [mergeChains_nil_right]
  | case3 a as b bs h ih =>
    rw [mergeChains_cons_pos _ _ _ _ _ h]
    exact (ih.cons b).trans List.perm_middle.symm
  | case4 a as b bs h ih =>
    rw [mergeChains_cons_neg _ _ _ _ _ h]
    exact ih.cons a

theorem mergeChains_length {β : Type} (ltb : β → β → Bool) (as bs : List β) :
    (mergeChains ltb as bs).length = as.length + bs.length := by
  have := (mergeChains_perm ltb as bs).length_eq
  simpa using this

theorem mergeChains_sorted {α : Type} [LinearOrder α] (as bs : List (α × Bool)) :
    as.Pairwise (fun p q => p.1 ≤ q.1) → bs.Pairwise (fun p q => p.1 ≤ q.1) →
    (mergeChains valLt as bs).Pairwise (fun p q => p.1 ≤ q.1) := by
  induction as, bs using mergeChains.induct (@valLt α _) with
  | case1 bs =>
    intro _ hb
    simpa [mergeChains_nil_left] using hb
  | case2 a as =>
    intro ha _
    simpa [mergeChains_nil_right] using ha
  | case3 a as b bs h ih =>
    intro ha hb
    rw [mergeChains_cons_pos _ _ _ _ _ h]
    have hb' := List.pairwise_cons.mp hb
    have hba : b.1 < a.1 := by simpa [valLt] using h
    refine List.pairwise_cons.mpr ⟨?_, ih ha hb'.2⟩
    intro y hy
    have hmem : y ∈ (a :: as) ++ bs := (mergeChains_perm valLt (a :: as) bs).subset hy
    rcases List.mem_append.mp hmem with hy1 | hy2
    · rcases List.mem_cons.mp hy1 with rfl | hy1
      · exact le_of_lt hba
      · exact le_trans (le_of_lt hba) ((List.pairwise_cons.mp ha).1 y hy1)
    · exact hb'.1 y hy2
  | case4 a as b bs h ih =>
    intro ha hb
    rw [mergeChains_cons_neg _ _ _ _ _ h]
    have ha' := List.pairwise_cons.mp ha
    have hab : a.1 ≤ b.1 := le_of_not_lt (by simpa [valLt] using h)
    refine List.pairwise_cons.mpr ⟨?_, ih ha'.2 hb⟩
    intro y hy
    have hmem : y ∈ as ++ (b :: bs) := (mergeChains_perm valLt as (b :: bs)).subset hy
    rcases List.mem_append.mp hmem with hy1 | hy2
    · exact ha'.1 y hy1
    · rcases List.mem_cons.mp hy2 with rfl | hy2
      · exact hab
      · exact le_trans hab ((List.pairwise_cons.mp hb).1 y hy2)

theorem mergeChains_tie {α : Type} [LinearOrder α] (as bs : List (α × Bool)) :
    as.Pairwise (fun p q => p.1 ≤ q.1) →
    (∀ p ∈ as, p.2 = false) → (∀ q ∈ bs, q.2 = true) →
    (mergeChains valLt as bs).Pairwise
      (fun p q => p.2 = true → q.2 = false → p.1 < q.1) := by
  induction as, bs using mergeChains.induct (@valLt α _) with
  | case1 bs =>
    intro _ _ htb
    rw [mergeChains_nil_left]
    refine List.pairwise_of_forall_mem_list ?_
    intro p _ q hq _ hq2
    rw [htb q hq] at hq2
    cases hq2
  | case2 a as =>
    intro _ hta _
    rw [mergeChains_nil_right]
    refine List.pairwise_of_forall_mem_list ?_
    intro p hp q _ hp2
    rw [hta p hp] at hp2
    cases hp2
  | case3 a as b bs h ih =>
    intro ha hta htb
    rw [mergeChains_cons_pos _ _ _ _ _ h]
    have hba : b.1 < a.1 := by simpa [valLt] using h
    have htb' : ∀ q ∈ bs, q.2 = true := fun q hq => htb q (List.mem_cons_of_mem b hq)
    refine List.pairwise_cons.mpr ⟨?_, ih ha hta htb'⟩
    intro y hy _ hy2
    have hmem : y ∈ (a :: as) ++ bs := (mergeChains_perm valLt (a :: as) bs).subset hy
    rcases List.mem_append.mp hmem with hy1 | hy2'
    · rcases List.mem_cons.mp hy1 with rfl | hy1
      · exact hba
      · exact lt_of_lt_of_le hba ((List.pairwise_cons.mp ha).1 y hy1)
    · rw [htb' y hy2'] at hy2
      cases hy2
  | case4 a as b bs h ih =>
    intro ha hta htb
    rw [mergeChains_cons_neg _ _ _ _ _ h]
    have hta' : ∀ p ∈ as, p.2 = false := fun p hp => hta p (List.mem_cons_of_mem a hp)
    refine List.pairwise_cons.mpr ⟨?_, ih (List.pairwise_cons.mp ha).2 hta' htb⟩
    intro y _ ha2
    rw [hta a (List.mem_cons_self a as)] at ha2
    cases ha2

/-- Claim C2: merging two individually ascending chains yields the ascending
merge (a permutation of the two inputs, pairwise non-descending in the
values), in which an argument-tagged element precedes a receiver-tagged
element only with a strictly smaller value — so among equal-valued elements
every receiver element precedes every argument element, the argument's node
being taken only when strictly less.  Tags: `false` = receiver, `true` =
argument.  Concretely, receiver `[1,3,3,5]` with argument `[2,3,4]` gives
`[1,2,3,3,3,4,5]` with the receiver's two 3s before the argument's 3. -/
theorem claim_C2_merge_stable :
    (∀ (α : Type) [LinearOrder α] (xs ys : List α),
        xs.Pairwise (· ≤ ·) → ys.Pairwise (· ≤ ·) →
        (mergeChains valLt (tagged false xs) (tagged true ys)).Perm
            (tagged false xs ++ tagged true ys) ∧
        (mergeChains valLt (tagged false xs) (tagged true ys)).Pairwise
            (fun p q => ¬ q.1 < p.1) ∧
        (mergeChains valLt (tagged false xs) (tagged true ys)).Pairwise
            (fun p q => p.2 = true → q.2 = false → p.1 < q.1)) ∧
    mergeChains valLt (tagged false [1, 3, 3, 5]) (tagged true [2, 3, 4]) =
      ([(1, false), (2, true), (3, false), (3, false), (3, true), (4, true),
        (5, false)] : List (Int × Bool)) := by
  constructor
  · intro α _ xs ys hxs hys
    have hxs' : (tagged false xs).Pairwise (fun p q => p.1 ≤ q.1) := by
      rw [tagged, List.pairwise_map]
      simpa using hxs
    have hys' : (tagged true ys).Pairwise (fun p q => p.1 ≤ q.1) := by
      rw [tagged, List.pairwise_map]
      simpa using hys
    have hta : ∀ p ∈ tagged false xs, p.2 = false := by
      intro p hp
      rw [tagged] at hp
      obtain ⟨x, -, rfl⟩ := List.mem_map.mp hp
      rfl
    have htb : ∀ q ∈ tagged true ys, q.2 = true := by
      intro q hq
      rw [tagged] at hq
      obtain ⟨x, -, rfl⟩ := List.mem_map.mp hq
      rfl
    refine ⟨mergeChains_perm _ _ _, ?_, mergeChains_tie _ _ hxs' hta htb⟩
    exact (mergeChains_sorted _ _ hxs' hys').imp (fun hpq => not_lt.mpr hpq)
  · simp [mergeChains, tagged, valLt]

/-- Claim C7: `reverse()` reverses the element traversal order, and applying
it twice returns the list to its original traversal order (involution). -/
theorem claim_C7_reverse_involution {α : Type} (l : ListSt α) :
    (reverse l).elems = l.elems.reverse ∧ reverse (reverse l) = l := by
  obtain ⟨i, es, s⟩ := l
  refine ⟨reverseModel_eq es, ?_⟩
  simp [reverse, reverseModel_eq]

/-- Claim C8: `unique()` retains exactly the first element of each maximal
run of consecutive equal elements and removes the others (`List.destutter`
under the complement of the element equality is precisely that sequence),
leaves no adjacent equal pair, and on `[1,1,2,2,2,3,1]` yields `[1,2,3,1]`
with the trailing non-consecutive `1` retained. -/
theorem claim_C8_unique_destutter :
    (∀ (α : Type) [DecidableEq α] (xs : List α),
        uniqueModel xs = xs.destutter (· ≠ ·) ∧
        (uniqueModel xs).Chain' (· ≠ ·)) ∧
    uniqueModel [1, 1, 2, 2, 2, 3, 1] = ([1, 2, 3, 1] : List Int) := by
  constructor
  · intro α _ xs
    refine ⟨uniqueModel_eq_destutter xs, ?_⟩
    rw [uniqueModel_eq_destutter]
    exact List.destutter_is_chain' _ xs
  · simp [uniqueModel, uniqueRun]

theorem sortModel_length {α : Type} [LinearOrder α] (xs : List α) (d : α) :
    (sortModel xs d).length = xs.length := by
  rw [sortModel]
  split
  · rfl
  · simp only [List.length_map, List.length_range]

theorem eraseIdx_getElem_succ {α : Type} (xs : List α) (k : Nat)
    (h : k < xs.length) :
    (xs.eraseIdx k)[k]? = xs[k + 1]? := by
  rw [List.eraseIdx_eq_take_drop_succ, List.getElem?_append, List.length_take]
  rw [Nat.min_eq_left (Nat.le_of_lt h), if_neg (Nat.lt_irrefl k), Nat.sub_self,
    List.getElem?_drop]

/-- Claim C4: `erase(pos)` fails with `ContainerIsEmpty` exactly when the
size counter is 0; otherwise it fails with `InvalidIterator` exactly when
`pos` is not bound to this list, null, or at the sentinel; otherwise it
removes the node, decrements the size by 1, and returns an iterator to the
element that followed (position `k` of the shortened chain, which is the
old element `k + 1`, and is `end()` of the result when the removed node was
last). -/
theorem claim_C4_erase_spec {α : Type} (l : ListSt α) (pos : LIter)
    (hwf : IterOk l pos) :
    ((erase l pos).2 = .err .containerIsEmpty ↔ l.sz = 0) ∧
    (l.sz ≠ 0 →
      ((erase l pos).2 = .err .invalidIterator ↔
        (pos.owner ≠ some l.id ∨ pos.ptr = none ∨
          pos.ptr = some l.elems.length))) ∧
    (∀ k, l.sz ≠ 0 → pos.owner = some l.id → pos.ptr = some k →
      k ≠ l.elems.length →
      (erase l pos).1.elems = l.elems.eraseIdx k ∧
      (erase l pos).1.sz = l.sz - 1 ∧
      (erase l pos).2 = .ok ⟨some l.id, some k⟩ ∧
      ((erase l pos).1.elems)[k]? = l.elems[k + 1]? ∧
      (k + 1 = l.elems.length →
        (⟨some l.id, some k⟩ : LIter) = endIter (erase l pos).1)) := by
  obtain ⟨po, pp⟩ := pos
  rw [IterOk] at hwf
  by_cases hsz : l.sz = 0
  · exact ⟨by simp [erase, hsz], fun h => absurd hsz h, fun k h => absurd hsz h⟩
  · cases pp with
    | none =>
      refine ⟨by simp [erase, hsz], fun _ => by simp [erase, hsz], ?_⟩
      intro k _ _ hp
      cases hp
    | some k0 =>
      by_cases how : po = some l.id
      · subst how
        by_cases hsent : k0 = l.elems.length
        · subst hsent
          refine ⟨by simp [erase, hsz], fun _ => by simp [erase, hsz], ?_⟩
          intro k _ _ hp hk
          injection hp with hp
          exact absurd hp.symm hk
        · refine ⟨by simp [erase, hsz, hsent],
            fun _ => by simp [erase, hsz, hsent], ?_⟩
          intro k _ _ hp hk
          injection hp with hp
          subst hp
          have hklen : k0 < l.elems.length :=
            lt_of_le_of_ne (hwf k0 rfl) hsent
          refine ⟨by simp [erase, hsz, hsent], by simp [erase, hsz, hsent],
            by simp [erase, hsz, hsent], ?_, ?_⟩
          · have : (erase l ⟨some l.id, some k0⟩).1.elems = l.elems.eraseIdx k0 := by
              simp [erase, hsz, hsent]
            rw [this]
            exact eraseIdx_getElem_succ _ _ hklen
          · intro hlast
            simp [erase, hsz, hsent, endIter, List.length_eraseIdx, hklen]
            omega
      · refine ⟨by simp [erase, hsz, how], fun _ => by simp [erase, hsz, how], ?_⟩
        intro k _ hpo
        exact absurd hpo how

/-- Witness for claim C4 at a concrete erase in the middle of `[10,20,30]`. -/
theorem claim_C4_erase_spec_witness :
    (erase (⟨0, [10, 20, 30], 3⟩ : ListSt Int) ⟨some 0, some 1⟩).1.elems
        = [10, 30] ∧
    (erase (⟨0, [10, 20, 30], 3⟩ : ListSt Int) ⟨some 0, some 1⟩).2
        = .ok ⟨some 0, some 1⟩ := by
  have h := claim_C4_erase_spec (⟨0, [10, 20, 30], 3⟩ : ListSt Int)
    ⟨some 0, some 1⟩ (by intro k hk; simp at hk ⊢; omega)
  obtain ⟨-, -, h3⟩ := h
  obtain ⟨he, -, hres, -, -⟩ := h3 1 (by decide) rfl rfl (by decide)
  refine ⟨?_, hres⟩
  rw [he]
  rfl

theorem insert_err_eq {α : Type} (l : ListSt α) (pos : LIter) (v : α)
    (e : ListError) :
    (insert l pos v).2 = .err e → (insert l pos v).1 = l := by
  rw [insert]
  split
  · intro _; rfl
  · split
    · intro h; simp at h
    · intro _; rfl

theorem erase_err_eq {α : Type} (l : ListSt α) (pos : LIter) (e : ListError) :
    (erase l pos).2 = .err e → (erase l pos).1 = l := by
  rw [erase]
  split
  · intro _; rfl
  · split
    · intro _; rfl
    · split
      · intro h; simp at h
      · intro _; rfl

theorem front_fst {α : Type} (l : ListSt α) : (front l).1 = l := by
  rw [front]; split <;> rfl

theorem back_fst {α : Type} (l : ListSt α) : (back l).1 = l := by
  rw [back]; split <;> rfl

theorem pop_front_err_eq {α : Type} (l : ListSt α) (e : ListError) :
    (pop_front l).2 = .err e → (pop_front l).1 = l := by
  rw [pop_front]
  split
  · intro _; rfl
  · intro h
    have h' : (match (erase l ⟨some l.id, some 0⟩).2 with
        | Res.ok _ => Res.ok ()
        | Res.err x => Res.err x) = Res.err e := h
    show (erase l ⟨some l.id, some 0⟩).1 = l
    rcases hE : (erase l ⟨some l.id, some 0⟩).2 with b | x
    · rw [hE] at h'
      simp at h'
    · exact erase_err_eq l _ x hE

theorem pop_back_err_eq {α : Type} (l : ListSt α) (e : ListError) :
    (pop_back l).2 = .err e → (pop_back l).1 = l := by
  rw [pop_back]
  split
  · intro _; rfl
  · intro h
    have h' : (match (erase l ⟨some l.id, some (l.elems.length - 1)⟩).2 with
        | Res.ok _ => Res.ok ()
        | Res.err x => Res.err x) = Res.err e := h
    show (erase l ⟨some l.id, some (l.elems.length - 1)⟩).1 = l
    rcases hE : (erase l ⟨some l.id, some (l.elems.length - 1)⟩).2 with b | x
    · rw [hE] at h'
      simp at h'
    · exact erase_err_eq l _ x hE

theorem incIter_err_eq {α : Type} (l : ListSt α) (it : LIter) (e : ListError) :
    (incIter l it).2 = .err e → (incIter l it).1 = it := by
  rw [incIter]
  split
  · intro _; rfl
  · split
    · intro h; simp at h
    · intro _; rfl

theorem decIter_err_eq {α : Type} (l : ListSt α) (it : LIter) (e : ListError) :
    (decIter l it).2 = .err e → (decIter l it).1 = it := by
  rw [decIter]
  split
  · intro _; rfl
  · split
    · intro _; rfl
    · split
      · intro _; rfl
      · split
        · intro h; simp at h
        · intro _; rfl

theorem derefIter_fst {α : Type} (l : ListSt α) (it : LIter) :
    (derefIter l it).1 = (l, it) := by
  rw [derefIter]; split <;> rfl

/-- Claim C5: every fallible operation performs its precondition checks
before any structural mutation — whenever an operation ends in an error,
the returned container state (element sequence and size counter) and the
returned iterator are exactly the inputs.  Iterators are plain values in
the model, so no other iterator can be affected by a failed call. -/
theorem claim_C5_checks_before_mutation {α : Type} (l : ListSt α)
    (pos it : LIter) (v : α) (e : ListError) :
    ((front l).2 = .err e → (front l).1 = l) ∧
    ((back l).2 = .err e → (back l).1 = l) ∧
    ((insert l pos v).2 = .err e → (insert l pos v).1 = l) ∧
    ((erase l pos).2 = .err e → (erase l pos).1 = l) ∧
    ((pop_front l).2 = .err e → (pop_front l).1 = l) ∧
    ((pop_back l).2 = .err e → (pop_back l).1 = l) ∧
    ((incIter l it).2 = .err e → (incIter l it).1 = it) ∧
    ((decIter l it).2 = .err e → (decIter l it).1 = it) ∧
    ((derefIter l it).2 = .err e → (derefIter l it).1 = (l, it)) :=
  ⟨fun _ => front_fst l, fun _ => back_fst l, insert_err_eq l pos v e,
    erase_err_eq l pos e, pop_front_err_eq l e, pop_back_err_eq l e,
    incIter_err_eq l it e, decIter_err_eq l it e, fun _ => derefIter_fst l it⟩

/-- Witness for claim C5: a failing erase on an empty list and a failing
backward step both leave their inputs unchanged. -/
theorem claim_C5_checks_before_mutation_witness :
    (erase (⟨0, [], 0⟩ : ListSt Int) ⟨some 0, some 0⟩).1 = ⟨0, [], 0⟩ ∧
    (decIter (⟨0, [], 0⟩ : ListSt Int) ⟨some 0, some 0⟩).1 = ⟨some 0, some 0⟩ := by
  have h := claim_C5_checks_before_mutation (⟨0, [], 0⟩ : ListSt Int)
    ⟨some 0, some 0⟩ ⟨some 0, some 0⟩ 7 .containerIsEmpty
  have h' := claim_C5_checks_before_mutation (⟨0, [], 0⟩ : ListSt Int)
    ⟨some 0, some 0⟩ ⟨some 0, some 0⟩ 7 .invalidIterator
  exact ⟨h.2.2.2.1 (by decide), h'.2.2.2.2.2.2.2.1 (by decide)⟩

/-- Claim C9: `merge(other)` is a no-op when the argument is the same list
object or is empty; otherwise the argument ends with a self-linked sentinel
and size 0, and the receiver's size is the sum of the two pre-merge
sizes. -/
theorem claim_C9_merge_noop_sizes {α : Type} [LinearOrder α]
    (l other : ListSt α) :
    merge l l = (l, l) ∧
    (other.sz = 0 → merge l other = (l, other)) ∧
    (l.id ≠ other.id → other.sz ≠ 0 →
      (merge l other).2.elems = [] ∧ (merge l other).2.sz = 0 ∧
      (merge l other).1.sz = l.sz + other.sz) := by
  refine ⟨?_, ?_, ?_⟩
  · rw [merge, if_pos (Or.inl rfl)]
  · intro h
    rw [merge, if_pos (Or.inr h)]
  · intro h1 h2
    rw [merge, if_neg (not_or.mpr ⟨h1, h2⟩)]
    exact ⟨rfl, rfl, rfl⟩

/-- Witness for claim C9 at receiver `[1,3]` and argument `[2]`. -/
theorem claim_C9_merge_noop_sizes_witness :
    (merge (⟨0, [1, 3], 2⟩ : ListSt Int) ⟨1, [2], 1⟩).1.sz = 3 ∧
    (merge (⟨0, [1, 3], 2⟩ : ListSt Int) ⟨1, [2], 1⟩).2.sz = 0 ∧
    (merge (⟨0, [1, 3], 2⟩ : ListSt Int) ⟨1, [2], 1⟩).2.elems = [] := by
  have h := (claim_C9_merge_noop_sizes (⟨0, [1, 3], 2⟩ : ListSt Int)
    ⟨1, [2], 1⟩).2.2 (by decide) (by decide)
  exact ⟨h.2.2, h.2.1, h.1⟩

/-- Claim C10: on a non-empty list, stepping `end()` backwards succeeds and
yields an iterator at the last element (whose dereference reads the last
value), although `end()` itself is never a valid dereference or
forward-step source. -/
theorem claim_C10_end_backstep {α : Type} (l : ListSt α)
    (hsz : l.sz ≠ 0) (hinv : Inv l) :
    (decIter l (endIter l)).2 = .ok () ∧
    (decIter l (endIter l)).1 = ⟨some l.id, some (l.elems.length - 1)⟩ ∧
    (derefIter l ((decIter l (endIter l)).1)).2 = .ok l.elems.getLast? ∧
    (incIter l (endIter l)).2 = .err .invalidIterator ∧
    (derefIter l (endIter l)).2 = .err .invalidIterator := by
  rw [Inv] at hinv
  have hlen : l.elems.length ≠ 0 := by omega
  have h1 : (decIter l (endIter l)).1 = ⟨some l.id, some (l.elems.length - 1)⟩ := by
    simp [decIter, endIter, hsz, hlen]
  refine ⟨by simp [decIter, endIter, hsz, hlen], h1, ?_, by simp [incIter, endIter],
    by simp [derefIter, endIter]⟩
  rw [h1]
  have hne : ¬ l.elems.length - 1 = l.elems.length := by omega
  simp [derefIter, hne, List.getLast?_eq_getElem?]

/-- Witness for claim C10 on the two-element list `[5,7]`. -/
theorem claim_C10_end_backstep_witness :
    (decIter (⟨0, [5, 7], 2⟩ : ListSt Int) (endIter ⟨0, [5, 7], 2⟩)).2 = .ok () ∧
    (decIter (⟨0, [5, 7], 2⟩ : ListSt Int) (endIter ⟨0, [5, 7], 2⟩)).1
      = ⟨some 0, some 1⟩ := by
  have h := claim_C10_end_backstep (⟨0, [5, 7], 2⟩ : ListSt Int)
    (by decide) (by simp [Inv])
  exact ⟨h.1, h.2.1⟩

theorem insert_inv {α : Type} (l : ListSt α) (pos : LIter) (v : α)
    (hl : Inv l) (hpos : IterOk l pos) : Inv (insert l pos v).1 := by
  obtain ⟨po, pp⟩ := pos
  rw [IterOk] at hpos
  cases pp with
  | none => simpa [insert] using hl
  | some k =>
    by_cases how : po = some l.id
    · subst how
      have hk : k ≤ l.elems.length := hpos k rfl
      simp [insert, Inv, List.length_insertIdx _ _ hk]
      rw [Inv] at hl
      omega
    · simpa [insert, how] using hl

theorem erase_inv {α : Type} (l : ListSt α) (pos : LIter)
    (hl : Inv l) (hpos : IterOk l pos) : Inv (erase l pos).1 := by
  obtain ⟨po, pp⟩ := pos
  rw [IterOk] at hpos
  by_cases hsz : l.sz = 0
  · simpa [erase, hsz] using hl
  · cases pp with
    | none => simpa [erase, hsz] using hl
    | some k =>
      by_cases how : po = some l.id
      · subst how
        by_cases hsent : k = l.elems.length
        · simpa [erase, hsz, hsent] using hl
        · have hk : k < l.elems.length :=
            lt_of_le_of_ne (hpos k rfl) hsent
          simp [erase, hsz, hsent, Inv, List.length_eraseIdx, hk]
          rw [Inv] at hl
          omega
      · simpa [erase, hsz, how] using hl

/-- Claim C6: every public operation preserves the invariant that the size
counter equals the number of non-sentinel nodes reachable from
`sentinel.next` to the sentinel via `next`, i.e. the length of the
traversal sequence. -/
theorem claim_C6_size_invariant {α : Type} [LinearOrder α] [DecidableEq α]
    (l other : ListSt α) (pos : LIter) (v d : α) (i : Nat)
    (hl : Inv l) (hother : Inv other) (hpos : IterOk l pos) :
    Inv (defaultList α i) ∧ Inv (listCopy other i) ∧ Inv (assign l other) ∧
    Inv (clear l) ∧ Inv (insert l pos v).1 ∧ Inv (erase l pos).1 ∧
    Inv (push_front l v) ∧ Inv (push_back l v) ∧
    Inv (pop_front l).1 ∧ Inv (pop_back l).1 ∧
    Inv (sort d l) ∧ Inv (merge l other).1 ∧ Inv (merge l other).2 ∧
    Inv (reverse l) ∧ Inv (unique l) := by
  have hl' := hl
  rw [Inv] at hl'
  refine ⟨rfl, rfl, ?_, rfl, insert_inv l pos v hl hpos,
    erase_inv l pos hl hpos, ?_, ?_, ?_, ?_, ?_, ?_, ?_, ?_, ?_⟩
  · rw [assign]
    split
    · exact hl
    · exact rfl
  · exact insert_inv l _ v hl (by intro k hk; injection hk with hk; omega)
  · exact insert_inv l _ v hl (by intro k hk; injection hk with hk; omega)
  · rw [pop_front]
    split
    · exact hl
    · exact erase_inv l _ hl (by intro k hk; injection hk with hk; omega)
  · rw [pop_back]
    split
    · exact hl
    · exact erase_inv l _ hl (by intro k hk; injection hk with hk; omega)
  · rw [Inv, sort]
    simpa [sortModel_length] using hl'
  · rw [merge]
    split
    · exact hl
    · rw [Inv]
      simp [mergeChains_length]
      rw [Inv] at hother
      omega
  · rw [merge]
    split
    · exact hother
    · rw [Inv]
      rfl
  · rw [Inv, reverse]
    simpa [reverseModel_eq] using hl'
  · rw [Inv, unique]
    have := uniqueModel_length_le l.elems
    simp
    omega

/-- Witness for claim C6 at a concrete two-element list. -/
theorem claim_C6_size_invariant_witness :
    Inv (insert (⟨0, [4, 6], 2⟩ : ListSt Int) ⟨some 0, some 1⟩ 5).1 ∧
    Inv (unique (⟨0, [4, 6], 2⟩ : ListSt Int)) := by
  have h := claim_C6_size_invariant (⟨0, [4, 6], 2⟩ : ListSt Int)
    (⟨1, [2], 1⟩ : ListSt Int) ⟨some 0, some 1⟩ 5 0 3 (by simp [Inv])
    (by simp [Inv]) (by intro k hk; simp at hk ⊢; omega)
  exact ⟨h.2.2.2.2.1, h.2.2.2.2.2.2.2.2.2.2.2.2.2.2⟩

/-- Witness for claim C2 at the spec's concrete receiver and argument. -/
theorem claim_C2_merge_stable_witness :
    (mergeChains valLt (tagged false [1, 3, 3, 5]) (tagged true [2, 3, 4])).Perm
      (tagged false [1, 3, 3, 5] ++ tagged true ([2, 3, 4] : List Int)) :=
  (claim_C2_merge_stable.1 Int [1, 3, 3, 5] [2, 3, 4]
    (by decide) (by decide)).1

theorem scanUp_le {α : Type} [LinearOrder α] (f : Int → α) (v : α) :
    ∀ (fuel : Nat) (i : Int), i ≤ scanUp f v fuel i := by
  intro fuel
  induction fuel with
  | zero => intro i; rw [scanUp]
  | succ fuel ih =>
    intro i
    rw [scanUp]
    split
    · exact le_trans (by omega) (ih (i + 1))
    · exact le_refl i

theorem scanUp_spec {α : Type} [LinearOrder α] (f : Int → α) (v : α) :
    ∀ (fuel : Nat) (i k : Int), i ≤ k → ¬ f k < v → (k - i).toNat ≤ fuel →
      scanUp f v fuel i ≤ k ∧ ¬ f (scanUp f v fuel i) < v ∧
      ∀ m, i ≤ m → m < scanUp f v fuel i → f m < v := by
  intro fuel
  induction fuel with
  | zero =>
    intro i k hik hk hfuel
    have : k = i := by omega
    subst this
    rw [scanUp]
    exact ⟨le_refl _, hk, fun m h1 h2 => absurd h1 (by omega)⟩
  | succ fuel ih =>
    intro i k hik hk hfuel
    rw [scanUp]
    split
    next hfi =>
      have hne : i ≠ k := fun h => hk (h ▸ hfi)
      obtain ⟨h1, h2, h3⟩ := ih (i + 1) k (by omega) hk (by omega)
      refine ⟨h1, h2, ?_⟩
      intro m hm1 hm2
      rcases eq_or_lt_of_le hm1 with rfl | hm1'
      · exact hfi
      · exact h3 m (by omega) hm2
    next hfi => exact ⟨hik, hfi, fun m h1 h2 => absurd h1 (by omega)⟩

theorem scanDown_ge {α : Type} [LinearOrder α] (f : Int → α) (v : α) :
    ∀ (fuel : Nat) (j : Int), scanDown f v fuel j ≤ j := by
  intro fuel
  induction fuel with
  | zero => intro j; rw [scanDown]
  | succ fuel ih =>
    intro j
    rw [scanDown]
    split
    · exact le_trans (ih (j - 1)) (by omega)
    · exact le_refl j

theorem scanDown_spec {α : Type} [LinearOrder α] (f : Int → α) (v : α) :
    ∀ (fuel : Nat) (j k : Int), k ≤ j → ¬ v < f k → (j - k).toNat ≤ fuel →
      k ≤ scanDown f v fuel j ∧ ¬ v < f (scanDown f v fuel j) ∧
      ∀ m, scanDown f v fuel j < m → m ≤ j → v < f m := by
  intro fuel
  induction fuel with
  | zero =>
    intro j k hkj hk hfuel
    have : k = j := by omega
    subst this
    rw [scanDown]
    exact ⟨le_refl _, hk, fun m h1 h2 => absurd h2 (by omega)⟩
  | succ fuel ih =>
    intro j k hkj hk hfuel
    rw [scanDown]
    split
    next hfj =>
      have hne : k ≠ j := fun h => hk (h ▸ hfj)
      obtain ⟨h1, h2, h3⟩ := ih (j - 1) k (by omega) hk (by omega)
      refine ⟨h1, h2, ?_⟩
      intro m hm1 hm2
      rcases eq_or_lt_of_le hm2 with rfl | hm2'
      · exact hfj
      · exact h3 m hm1 (by omega)
    next hfj => exact ⟨hkj, hfj, fun m h1 h2 => absurd h2 (by omega)⟩

theorem swapF_fst {α : Type} (f : Int → α) (i j : Int) : swapF f i j i = f j := by
  simp [swapF]

theorem swapF_snd {α : Type} (f : Int → α) (i j : Int) : swapF f i j j = f i := by
  by_cases h : j = i
  · subst h
    simp [swapF]
  · simp [swapF, h]

theorem swapF_other {α : Type} (f : Int → α) (i j k : Int) (h1 : k ≠ i)
    (h2 : k ≠ j) : swapF f i j k = f k := by
  simp [swapF, h1, h2]

theorem msOn_one {α : Type} (f : Int → α) (a : Int) : msOn f a 1 = {f a} := by
  rw [msOn]
  have hr : Multiset.range 1 = {0} := rfl
  rw [hr, Multiset.map_singleton]
  norm_num

theorem msOn_congr {α : Type} {f g : Int → α} (a : Int) (m : Nat)
    (h : ∀ t : Nat, t < m → f (a + (t : Int)) = g (a + (t : Int))) :
    msOn f a m = msOn g a m := by
  rw [msOn, msOn]
  refine Multiset.map_congr rfl ?_
  intro t ht
  exact h t (Multiset.mem_range.mp ht)

theorem msOn_split {α : Type} (f : Int → α) (a : Int) (p q : Nat) :
    msOn f a (p + q) = msOn f a p + msOn f (a + (p : Int)) q := by
  rw [msOn, msOn, msOn]
  have hr : Multiset.range (p + q)
      = Multiset.range p + (Multiset.range q).map (fun t => p + t) := by
    have h := List.range_add p q
    calc Multiset.range (p + q)
        = ((List.range (p + q) : List Nat) : Multiset Nat) := rfl
      _ = ((List.range p ++ (List.range q).map (fun x => p + x) : List Nat) :
            Multiset Nat) := by rw [h]
      _ = Multiset.range p + (Multiset.range q).map (fun t => p + t) := rfl
  rw [hr, Multiset.map_add, Multiset.map_map]
  congr 1
  refine Multiset.map_congr rfl ?_
  intro t _
  show f (a + ((p + t : Nat) : Int)) = f (a + (p : Int) + (t : Int))
  congr 1
  push_cast
  ring

theorem mem_msOn {α : Type} {f : Int → α} {a : Int} {m : Nat} {x : α} :
    x ∈ msOn f a m ↔ ∃ t : Nat, t < m ∧ x = f (a + (t : Int)) := by
  rw [msOn]
  simp only [Multiset.mem_map, Multiset.mem_range]
  constructor
  · rintro ⟨t, ht, rfl⟩
    exact ⟨t, ht, rfl⟩
  · rintro ⟨t, ht, rfl⟩
    exact ⟨t, ht, rfl⟩

theorem swapF_self {α : Type} (f : Int → α) (i : Int) : swapF f i i = f := by
  funext k
  by_cases h : k = i <;> simp [swapF, h]

theorem swapF_comm {α : Type} (f : Int → α) (i j : Int) :
    swapF f i j = swapF f j i := by
  funext k
  by_cases h1 : k = i
  · subst h1
    by_cases h2 : k = j
    · subst h2
      rfl
    · rw [swapF_fst, swapF_snd]
  · by_cases h2 : k = j
    · subst h2
      rw [swapF_snd, swapF_fst]
    · rw [swapF_other f i j k h1 h2, swapF_other f j i k h2 h1]

theorem msOn_swapF_lt {α : Type} (f : Int → α) (a : Int) (m : Nat) (i j : Int)
    (hi1 : a ≤ i) (hij : i < j) (hj2 : j < a + (m : Int)) :
    msOn (swapF f i j) a m = msOn f a m := by
  set p1 := (i - a).toNat with hp1
  set p2 := (j - i - 1).toNat with hp2
  set p3 := (a + (m : Int) - j - 1).toNat with hp3
  have hm : m = p1 + (1 + (p2 + (1 + p3))) := by omega
  have e1 : a + (p1 : Int) = i := by omega
  have eo1 : i + ((1 : Nat) : Int) = i + 1 := by omega
  have e2 : i + 1 + (p2 : Int) = j := by omega
  have eo2 : j + ((1 : Nat) : Int) = j + 1 := by omega
  have split5 : ∀ g : Int → α, msOn g a m =
      msOn g a p1 + (msOn g i 1 +
        (msOn g (i + 1) p2 + (msOn g j 1 + msOn g (j + 1) p3))) := by
    intro g
    rw [hm, msOn_split, e1, msOn_split, eo1, msOn_split, e2, msOn_split, eo2]
  rw [split5 (swapF f i j), split5 f]
  simp only [msOn_one, swapF_fst, swapF_snd]
  have hA : msOn (swapF f i j) a p1 = msOn f a p1 :=
    msOn_congr a p1 (fun t ht => swapF_other f i j _ (by omega) (by omega))
  have hB : msOn (swapF f i j) (i + 1) p2 = msOn f (i + 1) p2 :=
    msOn_congr (i + 1) p2 (fun t ht => swapF_other f i j _ (by omega) (by omega))
  have hC : msOn (swapF f i j) (j + 1) p3 = msOn f (j + 1) p3 :=
    msOn_congr (j + 1) p3 (fun t ht => swapF_other f i j _ (by omega) (by omega))
  rw [hA, hB, hC]
  abel

theorem msOn_swapF {α : Type} (f : Int → α) (a : Int) (m : Nat) (i j : Int)
    (hi1 : a ≤ i) (hi2 : i < a + (m : Int)) (hj1 : a ≤ j)
    (hj2 : j < a + (m : Int)) :
    msOn (swapF f i j) a m = msOn f a m := by
  rcases lt_trichotomy i j with h | h | h
  · exact msOn_swapF_lt f a m i j hi1 h hj2
  · rw [h, swapF_self]
  · rw [swapF_comm]
    exact msOn_swapF_lt f a m j i hj1 h hi2

theorem partLoop_post {α : Type} [LinearOrder α] (v : α) (sf : Nat) (l r : Int)
    (hlr : l < r) (f0 : Int → α) (hsf : (r + 1 - l).toNat ≤ sf) :
    ∀ (pf : Nat) (f : Int → α) (i j : Int), PInv v l r f0 f i j →
      (j + 2 - i).toNat ≤ pf →
      PPost v l r f0 (partLoop v sf pf f i j).1 (partLoop v sf pf f i j).2.1
        (partLoop v sf pf f i j).2.2 := by
  intro pf
  induction pf with
  | zero =>
    intro f i j hinv hfuel
    rw [partLoop]
    have hji : j < i := by omega
    have hprog : l < i ∧ j < r := by
      rcases hinv.prog with ⟨h1, h2⟩ | h
      · exfalso
        omega
      · exact h
    exact ⟨hprog.1, hinv.hir, hinv.hlj, hprog.2, hji, hinv.left, hinv.right,
      hinv.frame, hinv.perm⟩
  | succ pf ih =>
    intro f i j hinv hfuel
    have hli := hinv.hli
    have hir := hinv.hir
    have hlj := hinv.hlj
    have hjr := hinv.hjr
    rw [partLoop]
    split
    case isTrue hij =>
      obtain ⟨ku, hku1, hku2, hku3⟩ := hinv.su hij
      have hkufuel : (ku - i).toNat ≤ sf := by omega
      obtain ⟨hi1k, hi1stop, hi1scan⟩ := scanUp_spec f v sf i ku hku1 hku3 hkufuel
      have hi1ge : i ≤ scanUp f v sf i := scanUp_le f v sf i
      set i1 := scanUp f v sf i with hi1def
      have hi1le : i1 ≤ j + 1 := le_trans hi1k hku2
      have hsd : ∃ kd, i1 - 1 ≤ kd ∧ kd ≤ j ∧ ¬ v < f kd := by
        by_cases hii : i < i1
        · exact ⟨i1 - 1, le_refl _, by omega,
            lt_asymm (hi1scan (i1 - 1) (by omega) (by omega))⟩
        · obtain ⟨kd, h1, h2, h3⟩ := hinv.sd hij
          exact ⟨kd, by omega, h2, h3⟩
      obtain ⟨kd, hkd1, hkd2, hkd3⟩ := hsd
      have hkdfuel : (j - kd).toNat ≤ sf := by omega
      obtain ⟨hj1k, hj1stop, hj1scan⟩ := scanDown_spec f v sf j kd hkd2 hkd3 hkdfuel
      have hj1le : scanDown f v sf j ≤ j := scanDown_ge f v sf j
      set j1 := scanDown f v sf j with hj1def
      have hj1ge : i1 - 1 ≤ j1 := le_trans hkd1 hj1k
      split
      case isTrue hsw =>
        refine ih (swapF f i1 j1) (i1 + 1) (j1 - 1) ?_ (by omega)
        refine ⟨by omega, by omega, by omega, by omega,
          Or.inr ⟨by omega, by omega⟩, ?_, ?_, ?_, ?_, ?_, ?_, ?_⟩
        · intro k hk1 hk2
          by_cases hki1 : k = i1
          · subst hki1
            rw [swapF_fst]
            exact le_of_not_lt hj1stop
          · have hkj1 : k ≠ j1 := by omega
            rw [swapF_other f i1 j1 k hki1 hkj1]
            by_cases hki : k < i
            · exact hinv.left k hk1 hki
            · exact le_of_lt (hi1scan k (by omega) (by omega))
        · intro k hk1 hk2
          by_cases hkj1 : k = j1
          · subst hkj1
            rw [swapF_snd]
            exact le_of_not_lt hi1stop
          · have hki1 : k ≠ i1 := by omega
            rw [swapF_other f i1 j1 k hki1 hkj1]
            by_cases hkj : j < k
            · exact hinv.right k hkj hk2
            · exact le_of_lt (hj1scan k (by omega) (by omega))
        · intro k hk
          rw [swapF_other f i1 j1 k (by omega) (by omega)]
          exact hinv.frame k hk
        · refine (msOn_swapF f l ((r - l).toNat + 1) i1 j1 (by omega) (by omega)
            (by omega) (by omega)).trans hinv.perm
        · intro hs
          refine ⟨j1, by omega, by omega, ?_⟩
          rw [swapF_snd]
          exact hi1stop
        · intro hs
          refine ⟨i1, by omega, by omega, ?_⟩
          rw [swapF_fst]
          exact hj1stop
        · intro hmid
          exfalso
          omega
      case isFalse hsw =>
        have hprog2 : l < i ∧ j < r := by
          rcases hinv.prog with ⟨hil, hjr2⟩ | h
          · exfalso
            subst hil
            subst hjr2
            obtain ⟨hm1, hm2⟩ := hinv.mid0 ⟨rfl, rfl⟩
            have hmb : i ≤ (i + j) / 2 ∧ (i + j) / 2 ≤ j := by omega
            obtain ⟨hA, -, -⟩ :=
              scanUp_spec f v sf i ((i + j) / 2) hmb.1 hm1 (by omega)
            obtain ⟨hB, -, -⟩ :=
              scanDown_spec f v sf j ((i + j) / 2) hmb.2 hm2 (by omega)
            rw [← hi1def] at hA
            rw [← hj1def] at hB
            omega
          · exact h
        show PPost v l r f0 f i1 j1
        refine ⟨by omega, by omega, by omega, by omega, by omega, ?_, ?_,
          hinv.frame, hinv.perm⟩
        · intro k hk1 hk2
          by_cases hki : k < i
          · exact hinv.left k hk1 hki
          · exact le_of_lt (hi1scan k (by omega) hk2)
        · intro k hk1 hk2
          by_cases hkj : j < k
          · exact hinv.right k hkj hk2
          · exact le_of_lt (hj1scan k hk1 (by omega))
    case isFalse hij =>
      have hji : j < i := by omega
      have hprog : l < i ∧ j < r := by
        rcases hinv.prog with ⟨h1, h2⟩ | h
        · exfalso
          omega
        · exact h
      exact ⟨hprog.1, hinv.hir, hinv.hlj, hprog.2, hji, hinv.left, hinv.right,
        hinv.frame, hinv.perm⟩

theorem partLoop_run {α : Type} [LinearOrder α] (f0 : Int → α) (l r : Int)
    (hlr : l < r) (sf pf : Nat) (hsf : (r + 1 - l).toNat ≤ sf)
    (hpf : (r + 2 - l).toNat ≤ pf) :
    PPost (f0 ((l + r) / 2)) l r f0
      (partLoop (f0 ((l + r) / 2)) sf pf f0 l r).1
      (partLoop (f0 ((l + r) / 2)) sf pf f0 l r).2.1
      (partLoop (f0 ((l + r) / 2)) sf pf f0 l r).2.2 := by
  refine partLoop_post (f0 ((l + r) / 2)) sf l r hlr f0 hsf pf f0 l r ?_ (by omega)
  refine ⟨le_refl l, by omega, by omega, le_refl r, Or.inl ⟨rfl, rfl⟩,
    ?_, ?_, fun k _ => rfl, rfl, ?_, ?_, ?_⟩
  · intro k hk1 hk2
    exfalso
    omega
  · intro k hk1 hk2
    exfalso
    omega
  · intro _
    exact ⟨(l + r) / 2, by omega, by omega, lt_irrefl _⟩
  · intro _
    exact ⟨(l + r) / 2, by omega, by omega, lt_irrefl _⟩
  · intro _
    exact ⟨lt_irrefl _, lt_irrefl _⟩

theorem qsStep_eq {α : Type} [LinearOrder α] (n : Nat) (f : Int → α)
    (l r : Int) (rest : List (Int × Int)) :
    qsStep n ⟨f, (l, r) :: rest⟩ =
      ⟨(partLoop (f ((l + r) / 2)) (n + 2) (n + 2) f l r).1,
        (if (partLoop (f ((l + r) / 2)) (n + 2) (n + 2) f l r).2.1 < r then
          [((partLoop (f ((l + r) / 2)) (n + 2) (n + 2) f l r).2.1, r)] else []) ++
        ((if l < (partLoop (f ((l + r) / 2)) (n + 2) (n + 2) f l r).2.2 then
          [(l, (partLoop (f ((l + r) / 2)) (n + 2) (n + 2) f l r).2.2)] else []) ++
        rest)⟩ := by
  rw [qsStep]
  by_cases h1 : (partLoop (f ((l + r) / 2)) (n + 2) (n + 2) f l r).2.1 < r <;>
    by_cases h2 : l < (partLoop (f ((l + r) / 2)) (n + 2) (n + 2) f l r).2.2 <;>
      simp [h1, h2]

theorem two_pow_push_lt (A B s : Nat) (hA : 2 ≤ A) (hB : 2 ≤ B)
    (hs : A + B ≤ s) : 2 ^ A + 2 ^ B < 2 ^ s := by
  rcases le_total A B with h | h
  · have h1 : 2 ^ A + 2 ^ B ≤ 2 ^ (B + 1) := by
      rw [pow_succ]
      have h2 := Nat.pow_le_pow_right (show 0 < 2 by norm_num) h
      omega
    exact lt_of_le_of_lt h1
      (Nat.pow_lt_pow_right (by norm_num) (by omega))
  · have h1 : 2 ^ A + 2 ^ B ≤ 2 ^ (A + 1) := by
      rw [pow_succ]
      have h2 := Nat.pow_le_pow_right (show 0 < 2 by norm_num) h
      omega
    exact lt_of_le_of_lt h1
      (Nat.pow_lt_pow_right (by norm_num) (by omega))

theorem qsStep_inv {α : Type} [LinearOrder α] (n : Nat) (f0 f : Int → α)
    (l r : Int) (rest : List (Int × Int))
    (h : QInv n f0 ⟨f, (l, r) :: rest⟩) :
    QInv n f0 (qsStep n ⟨f, (l, r) :: rest⟩) ∧
      qsMeasure (qsStep n ⟨f, (l, r) :: rest⟩) < qsMeasure ⟨f, (l, r) :: rest⟩ := by
  have hb := h.bounds (l, r) (List.mem_cons_self _ _)
  have hl0 : 0 ≤ l := hb.1
  have hlr : l < r := hb.2.1
  have hrn : r ≤ (n : Int) - 1 := hb.2.2
  have hrel : ∀ q ∈ rest, r < q.1 ∨ q.2 < l := (List.pairwise_cons.mp h.disj).1
  have hrestd : rest.Pairwise (fun p q => p.2 < q.1 ∨ q.2 < p.1) :=
    (List.pairwise_cons.mp h.disj).2
  have P := partLoop_run f l r hlr (n + 2) (n + 2) (by omega) (by omega)
  rw [qsStep_eq]
  set g := (partLoop (f ((l + r) / 2)) (n + 2) (n + 2) f l r).1 with hgdef
  set i := (partLoop (f ((l + r) / 2)) (n + 2) (n + 2) f l r).2.1 with hidef
  set j := (partLoop (f ((l + r) / 2)) (n + 2) (n + 2) f l r).2.2 with hjdef
  have hli := P.hli
  have hir := P.hir
  have hlj := P.hlj
  have hjr := P.hjr
  have hji := P.hji
  have hmem : ∀ q ∈ (if i < r then [(i, r)] else []) ++
      ((if l < j then [(l, j)] else []) ++ rest),
      (q = (i, r) ∧ i < r) ∨ (q = (l, j) ∧ l < j) ∨ q ∈ rest := by
    intro q hq
    rcases List.mem_append.mp hq with hq1 | hq2
    · left
      revert hq1
      split
      · intro hq1
        exact ⟨List.mem_singleton.mp hq1, by assumption⟩
      · intro hq1
        exact absurd hq1 (List.not_mem_nil q)
    · rcases List.mem_append.mp hq2 with hq3 | hq4
      · right
        left
        revert hq3
        split
        · intro hq3
          exact ⟨List.mem_singleton.mp hq3, by assumption⟩
        · intro hq3
          exact absurd hq3 (List.not_mem_nil q)
      · exact Or.inr (Or.inr hq4)
  have hmemIR : i < r → (i, r) ∈ (if i < r then [(i, r)] else []) ++
      ((if l < j then [(l, j)] else []) ++ rest) := by
    intro hc
    refine List.mem_append.mpr (Or.inl ?_)
    rw [if_pos hc]
    exact List.mem_singleton.mpr rfl
  have hmemLJ : l < j → (l, j) ∈ (if i < r then [(i, r)] else []) ++
      ((if l < j then [(l, j)] else []) ++ rest) := by
    intro hc
    refine List.mem_append.mpr (Or.inr (List.mem_append.mpr (Or.inl ?_)))
    rw [if_pos hc]
    exact List.mem_singleton.mpr rfl
  have hmemR : ∀ q ∈ rest, q ∈ (if i < r then [(i, r)] else []) ++
      ((if l < j then [(l, j)] else []) ++ rest) := by
    intro q hq
    exact List.mem_append.mpr (Or.inr (List.mem_append.mpr (Or.inr hq)))
  have holdcov : ∀ k1 k2 : Int, ¬ (l ≤ k1 ∧ k2 ≤ r) →
      (∀ q ∈ rest, ¬ (q.1 ≤ k1 ∧ k2 ≤ q.2)) →
      (∀ p ∈ (l, r) :: rest, ¬ (p.1 ≤ k1 ∧ k2 ≤ p.2)) := by
    intro k1 k2 h1 h2 p hp
    rcases List.mem_cons.mp hp with rfl | hp'
    · exact h1
    · exact h2 p hp'
  have hgmem : ∀ k : Int, l ≤ k → k ≤ r → ∃ k' : Int, l ≤ k' ∧ k' ≤ r ∧
      g k = f k' := by
    intro k hk1 hk2
    have hmem1 : g k ∈ msOn g l ((r - l).toNat + 1) := by
      refine mem_msOn.mpr ⟨(k - l).toNat, by omega, ?_⟩
      congr 1
      omega
    rw [P.perm] at hmem1
    obtain ⟨t, ht, heq⟩ := mem_msOn.mp hmem1
    exact ⟨l + (t : Int), by omega, by omega, heq⟩
  constructor
  · refine ⟨?_, ?_, ?_, ?_⟩
    · intro q hq
      rcases hmem q hq with ⟨rfl, hc⟩ | ⟨rfl, hc⟩ | hq'
      · exact ⟨by omega, hc, hrn⟩
      · exact ⟨hl0, hc, by omega⟩
      · exact h.bounds q (List.mem_cons_of_mem _ hq')
    · rw [List.pairwise_append]
      refine ⟨?_, ?_, ?_⟩
      · split
        · exact List.pairwise_singleton _ _
        · exact List.Pairwise.nil
      · rw [List.pairwise_append]
        refine ⟨?_, hrestd, ?_⟩
        · split
          · exact List.pairwise_singleton _ _
          · exact List.Pairwise.nil
        · intro a ha q hq
          have ha' : a = (l, j) := by
            revert ha
            split
            · intro ha
              exact List.mem_singleton.mp ha
            · intro ha
              exact absurd ha (List.not_mem_nil a)
          subst ha'
          rcases hrel q hq with hc | hc
          · exact Or.inl (by omega)
          · exact Or.inr (by omega)
      · intro a ha q hq
        have ha' : a = (i, r) := by
          revert ha
          split
          · intro ha
            exact List.mem_singleton.mp ha
          · intro ha
            exact absurd ha (List.not_mem_nil a)
        subst ha'
        rcases List.mem_append.mp hq with hq1 | hq2
        · have hq' : q = (l, j) := by
            revert hq1
            split
            · intro hq1
              exact List.mem_singleton.mp hq1
            · intro hq1
              exact absurd hq1 (List.not_mem_nil q)
          subst hq'
          exact Or.inr (by omega)
        · rcases hrel q hq2 with hc | hc
          · exact Or.inl (by omega)
          · exact Or.inr (by omega)
    · intro k1 k2 hk10 hk12 hk2n hcov
      show g k1 ≤ g k2
      have hIR : ¬ (i ≤ k1 ∧ k2 ≤ r) := by
        by_cases hc : i < r
        · exact hcov (i, r) (hmemIR hc)
        · intro hx
          omega
      have hLJ : ¬ (l ≤ k1 ∧ k2 ≤ j) := by
        by_cases hc : l < j
        · exact hcov (l, j) (hmemLJ hc)
        · intro hx
          omega
      have hcovR : ∀ q ∈ rest, ¬ (q.1 ≤ k1 ∧ k2 ≤ q.2) := by
        intro q hq
        exact hcov q (hmemR q hq)
      by_cases hin1 : l ≤ k1 ∧ k1 ≤ r
      · by_cases hin2 : l ≤ k2 ∧ k2 ≤ r
        · have hk2j : j < k2 := by
            rcases not_and_or.mp hLJ with hc | hc
            · omega
            · omega
          have hk1i : k1 < i := by
            rcases not_and_or.mp hIR with hc | hc
            · omega
            · omega
          exact le_trans (P.left k1 hin1.1 hk1i) (P.right k2 hk2j hin2.2)
        · have hk2r : r < k2 := by omega
          have hub : ∀ k : Int, l ≤ k → k ≤ r → f k ≤ f k2 := by
            intro k hka hkb
            refine h.outside k k2 (by omega) (by omega) hk2n
              (holdcov k k2 (by omega) ?_)
            intro q hq hx
            rcases hrel q hq with hc | hc
            · omega
            · omega
          obtain ⟨k', hk'1, hk'2, hk'eq⟩ := hgmem k1 hin1.1 hin1.2
          have hfr : g k2 = f k2 := P.frame k2 (Or.inr hk2r)
          rw [hk'eq, hfr]
          exact hub k' hk'1 hk'2
      · by_cases hin2 : l ≤ k2 ∧ k2 ≤ r
        · have hk1l : k1 < l := by omega
          have hlb : ∀ k : Int, l ≤ k → k ≤ r → f k1 ≤ f k := by
            intro k hka hkb
            refine h.outside k1 k (by omega) (by omega) (by omega)
              (holdcov k1 k (by omega) ?_)
            intro q hq hx
            rcases hrel q hq with hc | hc
            · omega
            · omega
          obtain ⟨k', hk'1, hk'2, hk'eq⟩ := hgmem k2 hin2.1 hin2.2
          have hfr : g k1 = f k1 := P.frame k1 (Or.inl hk1l)
          rw [hk'eq, hfr]
          exact hlb k' hk'1 hk'2
        · have hfr1 : g k1 = f k1 := by
            refine P.frame k1 ?_
            rcases not_and_or.mp hin1 with hc | hc
            · exact Or.inl (by omega)
            · exact Or.inr (by omega)
          have hfr2 : g k2 = f k2 := by
            refine P.frame k2 ?_
            rcases not_and_or.mp hin2 with hc | hc
            · exact Or.inl (by omega)
            · exact Or.inr (by omega)
          rw [hfr1, hfr2]
          refine h.outside k1 k2 hk10 hk12 hk2n (holdcov k1 k2 ?_ hcovR)
          intro hx
          rcases not_and_or.mp hin1 with hc | hc
          · omega
          · omega
    · show msOn g 0 n = msOn f0 0 n
      have hsplit : ∀ fn : Int → α, msOn fn 0 n =
          msOn fn 0 l.toNat +
            (msOn fn ((0 : Int) + (l.toNat : Int)) ((r - l).toNat + 1) +
              msOn fn (((0 : Int) + (l.toNat : Int)) +
                  (((r - l).toNat + 1 : Nat) : Int))
                (n - l.toNat - ((r - l).toNat + 1))) := by
        intro fn
        have ha : n = l.toNat + (((r - l).toNat + 1) +
            (n - l.toNat - ((r - l).toNat + 1))) := by omega
        calc msOn fn 0 n
            = msOn fn 0 (l.toNat + (((r - l).toNat + 1) +
                (n - l.toNat - ((r - l).toNat + 1)))) := by rw [← ha]
          _ = _ := by rw [msOn_split, msOn_split]
      have hgf : msOn g 0 n = msOn f 0 n := by
        rw [hsplit g, hsplit f]
        have e0 : (0 : Int) + (l.toNat : Int) = l := by omega
        rw [e0]
        have e1 : l + (((r - l).toNat + 1 : Nat) : Int) = r + 1 := by omega
        rw [e1]
        congr 1
        · refine msOn_congr _ _ ?_
          intro t ht
          exact P.frame _ (Or.inl (by omega))
        congr 1
        · exact P.perm
        · refine msOn_congr _ _ ?_
          intro t ht
          exact P.frame _ (Or.inr (by omega))
      exact hgf.trans h.perm
  · show qsMeasure ⟨g, (if i < r then [(i, r)] else []) ++
        ((if l < j then [(l, j)] else []) ++ rest)⟩ <
      qsMeasure ⟨f, (l, r) :: rest⟩
    simp only [qsMeasure, List.map_append, List.sum_append, List.map_cons,
      List.sum_cons]
    by_cases h1 : i < r <;> by_cases h2 : l < j
    · rw [if_pos h1, if_pos h2]
      simp only [List.map_cons, List.map_nil, List.sum_cons, List.sum_nil]
      have hpw := two_pow_push_lt ((r - i).toNat + 1) ((j - l).toNat + 1)
        ((r - l).toNat + 1) (by omega) (by omega) (by omega)
      omega
    · rw [if_pos h1, if_neg h2]
      simp only [List.map_cons, List.map_nil, List.sum_cons, List.sum_nil]
      have hpw := Nat.pow_lt_pow_right (show (1 : Nat) < 2 by norm_num)
        (show (r - i).toNat + 1 < (r - l).toNat + 1 by omega)
      omega
    · rw [if_neg h1, if_pos h2]
      simp only [List.map_cons, List.map_nil, List.sum_cons, List.sum_nil]
      have hpw := Nat.pow_lt_pow_right (show (1 : Nat) < 2 by norm_num)
        (show (j - l).toNat + 1 < (r - l).toNat + 1 by omega)
      omega
    · rw [if_neg h1, if_neg h2]
      simp only [List.map_nil, List.sum_nil]
      have hpw : 0 < 2 ^ ((r - l).toNat + 1) :=
        Nat.pos_pow_of_pos _ (by norm_num)
      omega

theorem qsRun_inv {α : Type} [LinearOrder α] (n : Nat) (f0 : Int → α) :
    ∀ (fuel : Nat) (s : QS α), QInv n f0 s → QInv n f0 (qsRun n fuel s) := by
  intro fuel
  induction fuel with
  | zero =>
    intro s hs
    rw [qsRun]
    exact hs
  | succ fuel ih =>
    intro s hs
    obtain ⟨f, stack⟩ := s
    cases stack with
    | nil =>
      rw [qsRun]
      exact hs
    | cons hd rest =>
      obtain ⟨l, r⟩ := hd
      rw [qsRun]
      exact ih _ (qsStep_inv n f0 f l r rest hs).1

theorem qsRun_empty {α : Type} [LinearOrder α] (n : Nat) (f0 : Int → α) :
    ∀ (fuel : Nat) (s : QS α), QInv n f0 s → qsMeasure s ≤ fuel →
      (qsRun n fuel s).stack = [] := by
  intro fuel
  induction fuel with
  | zero =>
    intro s hs hm
    obtain ⟨f, stack⟩ := s
    cases stack with
    | nil => rw [qsRun]
    | cons hd rest =>
      exfalso
      have h1 : 1 ≤ 2 ^ ((hd.2 - hd.1).toNat + 1) := Nat.one_le_two_pow
      have h2 : qsMeasure ⟨f, hd :: rest⟩ = 2 ^ ((hd.2 - hd.1).toNat + 1) +
          (rest.map (fun p => 2 ^ ((p.2 - p.1).toNat + 1))).sum := by
        simp [qsMeasure]
      omega
  | succ fuel ih =>
    intro s hs hm
    obtain ⟨f, stack⟩ := s
    cases stack with
    | nil => rw [qsRun]
    | cons hd rest =>
      obtain ⟨l, r⟩ := hd
      rw [qsRun]
      obtain ⟨hinv', hdec⟩ := qsStep_inv n f0 f l r rest hs
      exact ih _ hinv' (by omega)

theorem qsInit_inv {α : Type} [LinearOrder α] (n : Nat) (hn : 2 ≤ n)
    (f0 : Int → α) :
    QInv n f0 ⟨f0, [((0 : Int), (n : Int) - 1)]⟩ := by
  refine ⟨?_, ?_, ?_, rfl⟩
  · intro p hp
    rw [List.mem_singleton] at hp
    subst hp
    refine ⟨le_refl _, by push_cast; omega, by omega⟩
  · exact List.pairwise_singleton _ _
  · intro k1 k2 hk10 hk12 hk2n hcov
    exact absurd ⟨hk10, hk2n⟩
      (hcov ((0 : Int), (n : Int) - 1) (List.mem_singleton.mpr rfl))

theorem stack_card_le (L : List (Int × Int)) :
    ∀ U : Finset Int, (∀ p ∈ L, p.1 < p.2 ∧ Finset.Icc p.1 p.2 ⊆ U) →
      L.Pairwise (fun p q => p.2 < q.1 ∨ q.2 < p.1) →
      2 * L.length ≤ U.card := by
  induction L with
  | nil =>
    intro U _ _
    simp
  | cons p L ih =>
    intro U hb hd
    have hp := hb p (List.mem_cons_self _ _)
    have hdis := (List.pairwise_cons.mp hd).1
    have hb' : ∀ q ∈ L, q.1 < q.2 ∧
        Finset.Icc q.1 q.2 ⊆ U \ Finset.Icc p.1 p.2 := by
      intro q hq
      have hbq := hb q (List.mem_cons_of_mem _ hq)
      refine ⟨hbq.1, ?_⟩
      intro x hx
      rw [Finset.mem_sdiff]
      refine ⟨hbq.2 hx, ?_⟩
      rw [Finset.mem_Icc] at hx
      rw [Finset.mem_Icc]
      rcases hdis q hq with hc | hc
      · intro hmem
        omega
      · intro hmem
        omega
    have hrec := ih (U \ Finset.Icc p.1 p.2) hb' (List.pairwise_cons.mp hd).2
    have hsub : Finset.Icc p.1 p.2 ⊆ U := hp.2
    have hcard := Finset.card_sdiff hsub
    have hicc : (Finset.Icc p.1 p.2).card = (p.2 + 1 - p.1).toNat :=
      Int.card_Icc _ _
    have hcard2 : (Finset.Icc p.1 p.2).card ≤ U.card := Finset.card_le_card hsub
    have hplt : p.1 < p.2 := hp.1
    simp only [List.length_cons]
    omega

/-- Claim C3 (amended): during `sort()` on `n >= 2` elements the machine
pushes every remaining subrange of length at least 2 (both of them, when
both are that long); since the stacked subranges are pairwise disjoint and
each at least 2 long, at most `n / 2` entries ever coexist, so at every
push the stack index stays below `n` and every write into the two
length-`n` boundary arrays `L` and `R` is within bounds. -/
theorem claim_C3_stack_bound {α : Type} [LinearOrder α] (n : Nat)
    (f0 : Int → α) (fuel : Nat) (hn : 2 ≤ n) :
    2 * (qsRun n fuel ⟨f0, [((0 : Int), (n : Int) - 1)]⟩).stack.length ≤ n := by
  have hinv := qsRun_inv n f0 fuel _ (qsInit_inv n hn f0)
  set s := qsRun n fuel ⟨f0, [((0 : Int), (n : Int) - 1)]⟩ with hsdef
  have hb : ∀ p ∈ s.stack, p.1 < p.2 ∧
      Finset.Icc p.1 p.2 ⊆ Finset.Icc 0 ((n : Int) - 1) := by
    intro p hp
    have hbp := hinv.bounds p hp
    refine ⟨hbp.2.1, ?_⟩
    intro x hx
    rw [Finset.mem_Icc] at hx
    rw [Finset.mem_Icc]
    omega
  have hcard := stack_card_le s.stack (Finset.Icc 0 ((n : Int) - 1)) hb hinv.disj
  rw [Int.card_Icc] at hcard
  omega

/-- Witness for the amended claim C3 on a concrete 6-element buffer after
three machine iterations. -/
theorem claim_C3_stack_bound_witness :
    2 * (qsRun 6 3 ⟨bufOf [2, 1, 3, 6, 5, 4] (0 : Int),
      [((0 : Int), 5)]⟩).stack.length ≤ 6 :=
  claim_C3_stack_bound 6 (bufOf [2, 1, 3, 6, 5, 4] (0 : Int)) 3 (by decide)

/-- Counterexample to claim C3 as stated: the claim says the quicksort
"pushes the larger remaining subrange's boundaries onto the explicit stack"
(the classic technique that pushes only the larger part and keeps iterating
on the smaller), but on the buffer `[2,1,3,6,5,4]` the first partition
(pivot value 3, final `j = 1`, `i = 3`) pushes BOTH remaining subranges:
after one iteration of the outer loop the stack holds the two entries
`(3,5)` (top) and `(0,1)` — including the smaller subrange `(0,1)` — while
pushing only the larger subrange would leave at most one entry after
popping the single initial entry. -/
theorem claim_C3_push_both_counterexample :
    (qsRun 6 1 ⟨bufOf [2, 1, 3, 6, 5, 4] (0 : Int),
        [((0 : Int), 5)]⟩).stack = [(3, 5), (0, 1)] ∧
    (qsRun 6 1 ⟨bufOf [2, 1, 3, 6, 5, 4] (0 : Int),
        [((0 : Int), 5)]⟩).stack.length = 2 := by
  constructor
  · rfl
  · rfl

theorem getD_range_eq {α : Type} (xs : List α) (d : α) :
    (List.range xs.length).map (fun t => xs.getD t d) = xs := by
  refine List.ext_getElem (by simp) ?_
  intro i h1 h2
  simp only [List.getElem_map, List.getElem_range]
  exact List.getD_eq_getElem xs d h2

theorem msOn_bufOf {α : Type} (xs : List α) (d : α) :
    msOn (bufOf xs d) 0 xs.length = (xs : Multiset α) := by
  rw [msOn]
  have hpt : ∀ t ∈ Multiset.range xs.length,
      bufOf xs d ((0 : Int) + (t : Int)) = xs.getD t d := by
    intro t _
    simp only [bufOf]
    have harg : ((0 : Int) + (t : Int)).toNat = t := by omega
    rw [harg]
  rw [Multiset.map_congr rfl hpt]
  calc (Multiset.range xs.length).map (fun t => xs.getD t d)
      = (((List.range xs.length).map (fun t => xs.getD t d) : List α) :
          Multiset α) := rfl
    _ = (xs : Multiset α) := by rw [getD_range_eq]

theorem sortModel_perm {α : Type} [LinearOrder α] (xs : List α) (d : α) :
    (sortModel xs d).Perm xs := by
  by_cases hn : xs.length ≤ 1
  · rw [sortModel, if_pos hn]
  · have hn2 : 2 ≤ xs.length := by omega
    have hinv := qsRun_inv xs.length (bufOf xs d) (2 ^ xs.length) _
      (qsInit_inv xs.length hn2 (bufOf xs d))
    rw [← Multiset.coe_eq_coe]
    have hform : sortModel xs d = (List.range xs.length).map
        (fun (t : Nat) => (qsRun xs.length (2 ^ xs.length)
          ⟨bufOf xs d, [((0 : Int), (xs.length : Int) - 1)]⟩).f (t : Int)) := by
      rw [sortModel, if_neg hn]
    rw [hform]
    calc (((List.range xs.length).map
            (fun (t : Nat) => (qsRun xs.length (2 ^ xs.length)
              ⟨bufOf xs d, [((0 : Int), (xs.length : Int) - 1)]⟩).f (t : Int)) :
            List α) : Multiset α)
        = (Multiset.range xs.length).map
            (fun (t : Nat) => (qsRun xs.length (2 ^ xs.length)
              ⟨bufOf xs d, [((0 : Int), (xs.length : Int) - 1)]⟩).f (t : Int)) :=
          rfl
      _ = msOn (qsRun xs.length (2 ^ xs.length)
            ⟨bufOf xs d, [((0 : Int), (xs.length : Int) - 1)]⟩).f 0 xs.length := by
          rw [msOn]
          refine Multiset.map_congr rfl ?_
          intro t _
          congr 1
          omega
      _ = msOn (bufOf xs d) 0 xs.length := hinv.perm
      _ = (xs : Multiset α) := msOn_bufOf xs d

theorem sortModel_sorted {α : Type} [LinearOrder α] (xs : List α) (d : α) :
    (sortModel xs d).Chain' (fun a b => ¬ b < a) := by
  by_cases hn : xs.length ≤ 1
  · rw [sortModel, if_pos hn]
    rcases xs with _ | ⟨a, _ | ⟨b, t⟩⟩
    · exact List.chain'_nil
    · exact List.chain'_singleton a
    · simp at hn
  · have hn2 : 2 ≤ xs.length := by omega
    have hinv := qsRun_inv xs.length (bufOf xs d) (2 ^ xs.length) _
      (qsInit_inv xs.length hn2 (bufOf xs d))
    have hempty : (qsRun xs.length (2 ^ xs.length)
        ⟨bufOf xs d, [((0 : Int), (xs.length : Int) - 1)]⟩).stack = [] := by
      refine qsRun_empty xs.length (bufOf xs d) (2 ^ xs.length) _
        (qsInit_inv xs.length hn2 (bufOf xs d)) ?_
      have hm : qsMeasure (⟨bufOf xs d,
          [((0 : Int), (xs.length : Int) - 1)]⟩ : QS α) =
          2 ^ (((xs.length : Int) - 1 - 0).toNat + 1) := by
        simp [qsMeasure]
      rw [hm]
      have he : ((xs.length : Int) - 1 - 0).toNat + 1 = xs.length := by omega
      rw [he]
    have hsorted : ∀ t1 t2 : Nat, t1 < t2 → t2 < xs.length →
        (qsRun xs.length (2 ^ xs.length)
          ⟨bufOf xs d, [((0 : Int), (xs.length : Int) - 1)]⟩).f (t1 : Int) ≤
        (qsRun xs.length (2 ^ xs.length)
          ⟨bufOf xs d, [((0 : Int), (xs.length : Int) - 1)]⟩).f (t2 : Int) := by
      intro t1 t2 h12 h2n
      refine hinv.outside (t1 : Int) (t2 : Int) (by omega) (by omega)
        (by omega) ?_
      intro p hp
      rw [hempty] at hp
      exact absurd hp (List.not_mem_nil p)
    have hform : sortModel xs d = (List.range xs.length).map
        (fun (t : Nat) => (qsRun xs.length (2 ^ xs.length)
          ⟨bufOf xs d, [((0 : Int), (xs.length : Int) - 1)]⟩).f (t : Int)) := by
      rw [sortModel, if_neg hn]
    rw [hform]
    refine List.Pairwise.chain' ?_
    rw [List.pairwise_map, List.pairwise_iff_getElem]
    intro a b ha hb hab
    simp only [List.getElem_range]
    have hb' : b < xs.length := by simpa using hb
    exact not_lt.mpr (hsorted _ _ hab hb')

/-- Claim C1: `sort()` leaves the size counter unchanged, produces a
traversal sequence that is a permutation of the pre-sort values (in
particular of unchanged length), and the traversal is ascending: for every
adjacent pair the successor is never strictly smaller. -/
theorem claim_C1_sort_correct {α : Type} [LinearOrder α] (l : ListSt α)
    (d : α) :
    (sort d l).sz = l.sz ∧
    (sort d l).elems.length = l.elems.length ∧
    ((sort d l).elems).Perm l.elems ∧
    ((sort d l).elems).Chain' (fun a b => ¬ b < a) :=
  ⟨rfl, sortModel_length _ _, sortModel_perm _ _, sortModel_sorted _ _⟩

end sjtu
